import Mathlib

/-!
Verification development for the transcript-to-utterance extraction pipeline
of the intro-to-nlp-project repository.

The pipeline lives in two Python modules:

* `src/missions_cleaner.py` — `clean_text` (glossary/tag unwrapping and
  whitespace normalisation) and `extract_dialogue` (the line-classifying
  state machine over `TIMESTAMP_RE`, `META_RE`, `SPEAKER_RE`).
* `src/data_cleaner.py` — `normalize_text` (bracket deletion, whitespace
  collapse, punctuation spacing, leading-punctuation strip) and `clean_file`
  (the timestamp+speaker loop with its look-ahead merge over
  `TIMESTAMP_SPEAKER_RE`, `NON_DIALOGUE_LINE_RE`, `SENTENCE_END_RE`,
  `ALNUM_RE`).

The shallow embedding below works over `List Char`.  Python regular
expressions are translated into explicit character-level parsers; for each
regex the translation notes why greedy matching with backtracking reduces to
the stated deterministic scan (the character classes involved never overlap
with the delimiters, so the match decomposition is forced).  Python `\s`,
`\w` and `str.strip`/`str.lower` are modelled over ASCII, which covers every
character class the source regexes name and every input the claims mention.
Lines are modelled without their trailing newline: every source regex either
strips the line first or ends in `\s*$` / `(.*)$`, so a trailing `"\n"` never
changes a match result or a captured group.

Scanning substitutions (`re.sub`) are modelled with an explicit fuel argument
equal to the input length; every successful match consumes at least one
character, so the fuel never runs out on the real recursion path, and the
fuel-0 fallback returns the remaining input unchanged.
-/

/-! ## Character classes (ASCII models of Python `\s`, `\w`, `[A-Za-z0-9]`) -/

/-- Python whitespace (`\s`, `str.strip`) over ASCII. -/
def isPySpace (c : Char) : Bool :=
  c = ' ' || c = '\t' || c = '\n' || c = '\r' || c = Char.ofNat 11 || c = Char.ofNat 12

/-- ASCII letter. -/
def isAsciiAlpha (c : Char) : Bool :=
  ('A' ≤ c && c ≤ 'Z') || ('a' ≤ c && c ≤ 'z')

/-- ASCII digit. -/
def isAsciiDigit (c : Char) : Bool :=
  '0' ≤ c && c ≤ '9'

/-- Python `\w` over ASCII: letter, digit or underscore. -/
def isWordChar (c : Char) : Bool :=
  isAsciiAlpha c || isAsciiDigit c || c = '_'

/-- `ALNUM_RE = [A-Za-z0-9]` from data_cleaner.py. -/
def isAlnumChar (c : Char) : Bool :=
  isAsciiAlpha c || isAsciiDigit c

/-- The punctuation class of `SPACE_BEFORE_PUNCT_RE = \s+([,.;:!?])`. -/
def isPunct1 (c : Char) : Bool :=
  c = ',' || c = '.' || c = ';' || c = ':' || c = '!' || c = '?'

/-- The class of `LEADING_PUNCT_RE = ^[,.;:!?-]+\s*`. -/
def isLeadPunct (c : Char) : Bool :=
  isPunct1 c || c = '-'

/-- Terminal sentence punctuation of `SENTENCE_END_RE = [.?!][\"')\]]?\s*$`. -/
def isTermPunct (c : Char) : Bool :=
  c = '.' || c = '?' || c = '!'

/-- The optional closing quote/bracket of `SENTENCE_END_RE`:
double quote, apostrophe, `)` or `]`. -/
def isCloseQuote (c : Char) : Bool :=
  c = Char.ofNat 34 || c = Char.ofNat 39 || c = ')' || c = ']'

/-! ## Basic string operations shared by both cleaners -/

/-- Python `str.strip()`: drop leading and trailing whitespace. -/
def stripChars (l : List Char) : List Char :=
  ((l.dropWhile isPySpace).reverse.dropWhile isPySpace).reverse

/-- One pass of `re.sub(r"\s+", " ", _)`: the flag records whether the
previous character was part of a whitespace run already replaced. -/
def collapseAux : Bool → List Char → List Char
  | _, [] => []
  | prevWs, c :: rest =>
    if isPySpace c then
      if prevWs then collapseAux true rest else ' ' :: collapseAux true rest
    else c :: collapseAux false rest

/-- `SPACE_RE.sub(" ", _)` / `WHITESPACE_RE.sub(" ", _)`: every maximal
whitespace run becomes a single space. -/
def collapseWs (l : List Char) : List Char :=
  collapseAux false l

/-- Split a list at the first occurrence of `t`: returns the part before it
and, when `t` occurs, the part after it. -/
def breakAt (t : Char) : List Char → List Char × Option (List Char)
  | [] => ([], none)
  | c :: rest =>
    if c = t then ([], some rest)
    else
      let r := breakAt t rest
      (c :: r.1, r.2)

/-- Python `" ".join`: interleave a single space between the pieces. -/
def joinSp : List (List Char) → List Char
  | [] => []
  | [p] => p
  | p :: q :: ps => p ++ ' ' :: joinSp (q :: ps)

/-- Split on the space character, keeping empty pieces, so that
`joinSp (splitSp l) = l`.  Used to read off the token structure of
`SPEAKER_RE`, whose token alternatives never contain a space. -/
def splitSp : List Char → List (List Char)
  | [] => [[]]
  | c :: r =>
    if c = ' ' then [] :: splitSp r
    else
      match splitSp r with
      | p :: ps => (c :: p) :: ps
      | [] => [[c]]

/-- Drop an expected literal from the front of the input
(the way a regex matches a literal string). -/
def dropLit : List Char → List Char → Option (List Char)
  | [], l => some l
  | _ :: _, [] => none
  | c :: cs, d :: ds => if d = c then dropLit cs ds else none

/-! ## missions_cleaner.py : regexes -/

/-- `TIMESTAMP_RE = ^\s*\[-?\d{2}:\d{2}:\d{2}:\d{2}\]\s*$`, used on the
stripped line.  `\d{2}` is followed by a delimiter outside the digit class,
so the regex matches exactly a two-digit run at each field. -/
def timestampMatch (l : List Char) : Bool :=
  let step2 (r : Option (List Char)) : Option (List Char) :=
    match r with
    | some (a :: b :: rest) =>
      if isAsciiDigit a && isAsciiDigit b then some rest else none
    | _ => none
  let expect (c : Char) (r : Option (List Char)) : Option (List Char) :=
    match r with
    | some (d :: rest) => if d = c then some rest else none
    | _ => none
  let t0 := l.dropWhile isPySpace
  let afterBracket :=
    match t0 with
    | '[' :: ('-' :: r) => some r
    | '[' :: r => some r
    | _ => none
  match expect ']'
      (step2 (expect ':' (step2 (expect ':' (step2 (expect ':' (step2 afterBracket))))))) with
  | some rest => (rest.dropWhile isPySpace).isEmpty
  | none => false

/-- Characters of `META_RE`'s identifier class `[A-Za-z0-9-]`. -/
def isMetaChar (c : Char) : Bool :=
  isAsciiAlpha c || isAsciiDigit c || c = '-'

/-- `META_RE = ^\s*_[A-Za-z0-9-]+\s*:` (prefix match on the stripped line).
The identifier class contains neither whitespace nor `:`, so the greedy run
is forced. -/
def metaMatch (l : List Char) : Bool :=
  match l.dropWhile isPySpace with
  | '_' :: rest =>
    decide (1 ≤ (rest.takeWhile isMetaChar).length) &&
      (match (rest.dropWhile isMetaChar).dropWhile isPySpace with
       | ':' :: _ => true
       | _ => false)
  | _ => false

/-- Token characters of `SPEAKER_RE`: `[\w()' / -]`. -/
def isTokenChar (c : Char) : Bool :=
  isWordChar c || c = '(' || c = ')' || c = Char.ofNat 39 || c = '/' || c = '-'

/-- The first token of `SPEAKER_RE`: `[^\W\d_][\w()' / -]{0,24}` — an ASCII
letter followed by up to 24 token characters (25 characters in total). -/
def firstTokOK : List Char → Bool
  | [] => false
  | c :: cs => isAsciiAlpha c && cs.all isTokenChar && decide (cs.length ≤ 24)

/-- A later token of `SPEAKER_RE`: `[\w()' / -]{1,24}` — between 1 and 24 token
characters. -/
def laterTokOK (t : List Char) : Bool :=
  decide (1 ≤ t.length) && decide (t.length ≤ 24) && t.all isTokenChar

/-- `SPEAKER_RE = ^([^\W\d_][\w()' / -]{0,24}(?: [\w()' / -]{1,24}){0,3}):\s*(.*)$`
applied with `re.match` to the raw line; returns group 2 (the remainder after
the colon with its leading whitespace consumed by the greedy `\s*`).

Group 1 cannot contain `:` (neither the token class nor the separating space
matches it), so any successful match takes group 1 to be exactly the text
before the first colon; and because the token class does not contain a space,
the only way that text derives from the token grammar is its split at the
space characters.  The match therefore succeeds exactly when the text before
the first colon splits into 1–4 space-separated tokens of the stated shapes. -/
def speakerMatch (line : List Char) : Option (List Char) :=
  match (breakAt ':' line).2 with
  | some post =>
    (match splitSp (breakAt ':' line).1 with
     | t0 :: ts =>
       if firstTokOK t0 && decide (ts.length ≤ 3) && ts.all laterTokOK then
         some (post.dropWhile isPySpace)
       else none
     | [] => none)
  | none => none

/-! ## missions_cleaner.py : clean_text -/

/-- Try `GLOSSARY_RE = \[glossary:([^\]|]+)(?:\|[^\]]*)?\]` at the start of
the input; on success return the replacement (group 1 stripped) and the rest
of the input after the match.  Group 1 is greedy and stops at the first `]`
or `|`; no backtracking can rescue a failed continuation because group 1 can
contain neither delimiter. -/
def glossTry (l : List Char) : Option (List Char × List Char) :=
  match dropLit "[glossary:".toList l with
  | none => none
  | some r =>
    let notDelim : Char → Bool := fun c => !(c = ']') && !(c = '|')
    let g1 := r.takeWhile notDelim
    let r2 := r.dropWhile notDelim
    if g1.isEmpty then none
    else
      match r2 with
      | ']' :: after => some (stripChars g1, after)
      | '|' :: r3 =>
        (match r3.dropWhile (fun c => !(c = ']')) with
         | ']' :: after => some (stripChars g1, after)
         | _ => none)
      | _ => none

/-- Tag-name characters of `BRACKET_TERM_RE`: `[A-Za-z0-9_-]`. -/
def isTagNameChar (c : Char) : Bool :=
  isAsciiAlpha c || isAsciiDigit c || c = '_' || c = '-'

/-- Try `BRACKET_TERM_RE = \[[A-Za-z0-9_-]+:([^\]|]+)(?:\|[^\]]*)?\]` at the
start of the input (same delimiter reasoning as `glossTry`; the tag-name
class does not contain `:`, so its greedy run is forced). -/
def bracketTry (l : List Char) : Option (List Char × List Char) :=
  match l with
  | '[' :: r0 =>
    let tg := r0.takeWhile isTagNameChar
    let r1 := r0.dropWhile isTagNameChar
    if tg.isEmpty then none
    else
      match r1 with
      | ':' :: r2 =>
        let notDelim : Char → Bool := fun c => !(c = ']') && !(c = '|')
        let g1 := r2.takeWhile notDelim
        let r3 := r2.dropWhile notDelim
        if g1.isEmpty then none
        else
          match r3 with
          | ']' :: after => some (stripChars g1, after)
          | '|' :: r4 =>
            (match r4.dropWhile (fun c => !(c = ']')) with
             | ']' :: after => some (stripChars g1, after)
             | _ => none)
          | _ => none
      | _ => none
  | _ => none

/-- The negative look-ahead of `TAG_RE`: `/?(?:sub|sup)\b` case-insensitively
at the given position (after the `<`).  `\b` holds when the following
character is not a word character, or at the end of input. -/
def subSupAhead (l : List Char) : Bool :=
  let core : List Char → Bool := fun r =>
    match r with
    | a :: b :: c :: r2 =>
      (a.toLower = 's' && b.toLower = 'u' && (c.toLower = 'b' || c.toLower = 'p')) &&
        (match r2 with
         | d :: _ => !isWordChar d
         | [] => true)
    | _ => false
  match l with
  | '/' :: r1 => core r1
  | r => core r

/-- Try `TAG_RE = <(?!/?(?:sub|sup)\b)/?[^>]+>` (IGNORECASE) at the start of
the input; the replacement is empty.  Because `/` itself belongs to `[^>]`,
the optional `/?` never changes the matched span: the regex matches iff a `>`
occurs with at least one character between it and the `<`, and the
look-ahead fails. -/
def tagTry (l : List Char) : Option (List Char × List Char) :=
  match l with
  | '<' :: r0 =>
    if subSupAhead r0 then none
    else
      let body := r0.takeWhile (fun c => !(c = '>'))
      match r0.dropWhile (fun c => !(c = '>')) with
      | '>' :: after => if body.isEmpty then none else some ([], after)
      | _ => none
  | _ => none

/-- Left-to-right scanning `re.sub`: at each position try the pattern; on a
match emit the replacement and resume after the match, otherwise emit the
character and advance one position.  `fuel` bounds the number of positions;
each successful match of the patterns above consumes at least one character,
so `fuel = length` always suffices and the fuel-0 fallback is inert. -/
def scanGo (tryAt : List Char → Option (List Char × List Char)) :
    Nat → List Char → List Char
  | 0, l => l
  | _ + 1, [] => []
  | fuel + 1, c :: rest =>
    match tryAt (c :: rest) with
    | some (r, a) => r ++ scanGo tryAt fuel a
    | none => c :: scanGo tryAt fuel rest

/-- `GLOSSARY_RE.sub(lambda m: m.group(1).strip(), _)`. -/
def glossarySub (l : List Char) : List Char :=
  scanGo glossTry l.length l

/-- `BRACKET_TERM_RE.sub(lambda m: m.group(1).strip(), _)`. -/
def bracketTermSub (l : List Char) : List Char :=
  scanGo bracketTry l.length l

/-- `TAG_RE.sub("", _)`. -/
def tagSub (l : List Char) : List Char :=
  scanGo tagTry l.length l

/-- `clean_text` from missions_cleaner.py: glossary unwrap, bracket-term
unwrap, tag removal, whitespace collapse, strip. -/
def cleanTextL (l : List Char) : List Char :=
  stripChars (collapseWs (tagSub (bracketTermSub (glossarySub l))))

/-- `clean_text` on strings. -/
def clean_text (s : String) : String :=
  String.mk (cleanTextL s.toList)

/-! ## missions_cleaner.py : extract_dialogue -/

/-- State of the utterance assembler: utterances emitted so far and the parts
of the currently open utterance (`current_parts`). -/
structure ExState where
  out : List (List Char)
  parts : List (List Char)
deriving Repr, DecidableEq

/-- Flush: if `current_parts` is non-empty, append `" ".join(current_parts)`
to the output. -/
def flushSt (s : ExState) : List (List Char) :=
  if s.parts.isEmpty then s.out else s.out ++ [joinSp s.parts]

/-- One iteration of the `extract_dialogue` loop body on one line. -/
def exStep (s : ExState) (line : List Char) : ExState :=
  let stripped := stripChars line
  if stripped.isEmpty then ⟨flushSt s, []⟩
  else if timestampMatch stripped then ⟨flushSt s, []⟩
  else if metaMatch stripped then ⟨flushSt s, []⟩
  else
    match speakerMatch line with
    | some spoken =>
      let cleaned := cleanTextL spoken
      ⟨flushSt s, if cleaned.isEmpty then [] else [cleaned]⟩
    | none =>
      if s.parts.isEmpty then s
      else
        let continuation := cleanTextL stripped
        ⟨s.out, if continuation.isEmpty then s.parts else s.parts ++ [continuation]⟩

/-- `extract_dialogue` over an already-split list of lines (each line without
its trailing newline; the source's `rstrip("\r\n")` is a no-op after
`splitlines`). -/
def extractDialogueLines (lines : List (List Char)) : List (List Char) :=
  flushSt (lines.foldl exStep ⟨[], []⟩)

/-- Python `str.splitlines` restricted to the ASCII line boundaries `"\n"`,
`"\r\n"` and `"\r"`: no trailing empty line is produced. -/
def splitLinesAux : List Char → List Char → List (List Char)
  | cur, [] => if cur.isEmpty then [] else [cur.reverse]
  | cur, '\r' :: '\n' :: r => cur.reverse :: splitLinesAux [] r
  | cur, '\n' :: r => cur.reverse :: splitLinesAux [] r
  | cur, '\r' :: r => cur.reverse :: splitLinesAux [] r
  | cur, c :: r => splitLinesAux (c :: cur) r

/-- `raw_text.splitlines()` (ASCII boundaries). -/
def pySplitlines (l : List Char) : List (List Char) :=
  splitLinesAux [] l

/-- `extract_dialogue(raw_text)` from missions_cleaner.py. -/
def extract_dialogue (raw : String) : List String :=
  (extractDialogueLines (pySplitlines raw.toList)).map String.mk

/-! ## data_cleaner.py : regexes -/

/-- `TIMESTAMP_SPEAKER_RE = ^\s*\d{1,3}:\d{2}:\d{2}\s+[^:]+:\s*(.*)$` with
`re.match`; returns group 1.

Each `\d{k}` run is followed in the pattern by a character outside the digit
class, so the digit runs in the subject must have exactly the stated lengths.
After the seconds field, `\s+[^:]+:` succeeds exactly when the first
character is whitespace and the first following colon sits at offset ≥ 2
(take the `\s+` to be that first character and `[^:]+` the rest before the
colon); group 1 is then everything after that colon, less the leading
whitespace consumed by the greedy `\s*`. -/
def tsMatch (line : List Char) : Option (List Char) :=
  let t0 := line.dropWhile isPySpace
  let d1 := t0.takeWhile isAsciiDigit
  let r1 := t0.dropWhile isAsciiDigit
  if decide (1 ≤ d1.length) && decide (d1.length ≤ 3) then
    match r1 with
    | ':' :: t1 =>
      let d2 := t1.takeWhile isAsciiDigit
      let r2 := t1.dropWhile isAsciiDigit
      if decide (d2.length = 2) then
        match r2 with
        | ':' :: t2 =>
          let d3 := t2.takeWhile isAsciiDigit
          let r3 := t2.dropWhile isAsciiDigit
          if decide (d3.length = 2) then
            match r3 with
            | c :: rest =>
              if isPySpace c then
                match breakAt ':' rest with
                | (pre, some after) =>
                  if decide (1 ≤ pre.length) then some (after.dropWhile isPySpace)
                  else none
                | (_, none) => none
              else none
            | [] => none
          else none
        | _ => none
      else none
    | _ => none
  else none

/-- `NON_DIALOGUE_LINE_RE` (IGNORECASE, prefix match):
`^\s*(Public Affairs Officer\s*-|Comm break\.|Long comm break\.|Very long comm break\.)`. -/
def isNonDialogue (l : List Char) : Bool :=
  let t := (l.dropWhile isPySpace).map Char.toLower
  let officer := "public affairs officer".toList
  (match dropLit officer t with
   | some r =>
     (match r.dropWhile isPySpace with
      | '-' :: _ => true
      | _ => false)
   | none => false) ||
  List.isPrefixOf "comm break.".toList t ||
  List.isPrefixOf "long comm break.".toList t ||
  List.isPrefixOf "very long comm break.".toList t

/-- `SENTENCE_END_RE.search = [.?!][\"')\]]?\s*$`, applied in the source to an
already-stripped candidate line, so the trailing `\s*` is vacuous: the last
character is terminal punctuation, or a closing quote/bracket preceded by
terminal punctuation. -/
def sentenceEnd (l : List Char) : Bool :=
  match l.reverse with
  | [] => false
  | c :: rest =>
    if isTermPunct c then true
    else if isCloseQuote c then
      match rest with
      | d :: _ => isTermPunct d
      | [] => false
    else false

/-! ## data_cleaner.py : normalize_text -/

/-- One scanning pass of `BRACKET_ANNOTATION_RE.sub("", _)` with
`BRACKET_ANNOTATION_RE = \[[^\]]*\]`: a `[` with a later `]` matches through
the first such `]`; a `[` with no closing `]` matches nothing and is kept. -/
def rbGo : Nat → List Char → List Char
  | 0, l => l
  | _ + 1, [] => []
  | fuel + 1, c :: rest =>
    if c = '[' then
      match breakAt ']' rest with
      | (_, some after) => rbGo fuel after
      | (_, none) => c :: rbGo fuel rest
    else c :: rbGo fuel rest

/-- `BRACKET_ANNOTATION_RE.sub("", _)`. -/
def removeBrackets (l : List Char) : List Char :=
  rbGo l.length l

/-- One scanning pass of `SPACE_BEFORE_PUNCT_RE.sub(r"\1", _)` with
`SPACE_BEFORE_PUNCT_RE = \s+([,.;:!?])`: a whitespace run directly followed
by one of the punctuation characters is replaced by that character. -/
def rspGo : Nat → List Char → List Char
  | 0, l => l
  | _ + 1, [] => []
  | fuel + 1, c :: rest =>
    if isPySpace c then
      match rest.dropWhile isPySpace with
      | p :: rest2 =>
        if isPunct1 p then p :: rspGo fuel rest2
        else c :: rspGo fuel rest
      | [] => c :: rspGo fuel rest
    else c :: rspGo fuel rest

/-- `SPACE_BEFORE_PUNCT_RE.sub(r"\1", _)`. -/
def removeSpaceBeforePunct (l : List Char) : List Char :=
  rspGo l.length l

/-- `LEADING_PUNCT_RE.sub("", _)` with `LEADING_PUNCT_RE = ^[,.;:!?-]+\s*`:
anchored, so it fires at most once, removing the leading punctuation run and
the whitespace run right after it. -/
def removeLeadingPunct (l : List Char) : List Char :=
  match l with
  | c :: _ =>
    if isLeadPunct c then (l.dropWhile isLeadPunct).dropWhile isPySpace else l
  | [] => []

/-- `normalize_text` from data_cleaner.py. -/
def normalizeTextL (l : List Char) : List Char :=
  removeLeadingPunct (removeSpaceBeforePunct (stripChars (collapseWs (removeBrackets l))))

/-- `normalize_text` on strings. -/
def normalize_text (s : String) : String :=
  String.mk (normalizeTextL s.toList)

/-! ## data_cleaner.py : clean_file -/

/-- The look-ahead merge loop of `clean_file` (lines 46–64), scanning the
lines after the empty-remainder header.  Returns the accumulated
`continuation_parts` and the final loop offset: the number of lines the inner
cursor `j` advanced past before the loop ended (by a boundary break, by the
sentence-end break after consuming a line, or by running out of lines). -/
def lookScan : List (List Char) → List (List Char) × Nat
  | [] => ([], 0)
  | ln :: rest =>
    let candidate := stripChars ln
    if candidate.isEmpty then
      let r := lookScan rest
      (r.1, r.2 + 1)
    else if (tsMatch ln).isSome then ([], 0)
    else if isNonDialogue candidate then ([], 0)
    else
      let nc := normalizeTextL candidate
      if !nc.isEmpty && nc.any isAlnumChar then
        if sentenceEnd candidate then ([nc], 0)
        else
          let r := lookScan rest
          (nc :: r.1, r.2 + 1)
      else
        let r := lookScan rest
        (r.1, r.2 + 1)

/-- One iteration of the outer `while i < len(lines)` loop of `clean_file`:
the utterances it appends and the lines left for the next iteration.
When the look-ahead produced parts, the source sets `i = j` and then runs the
common `i += 1`, so the next iteration starts at `j + 1`: `off + 1` lines of
the tail are dropped (including the line the look-ahead stopped at). -/
def cleanIter : List (List Char) → List (List Char) × List (List Char)
  | [] => ([], [])
  | ln :: rest =>
    match tsMatch ln with
    | none => ([], rest)
    | some g1 =>
      let text0 := stripChars g1
      if text0.isEmpty then
        let r := lookScan rest
        if r.1.isEmpty then ([], rest)
        else
          let t := normalizeTextL (joinSp r.1)
          ((if !t.isEmpty && t.any isAlnumChar then [t] else []), rest.drop (r.2 + 1))
      else
        let t := normalizeTextL text0
        ((if !t.isEmpty && t.any isAlnumChar then [t] else []), rest)

/-- The outer loop of `clean_file`, with fuel: every iteration consumes at
least one line, so `fuel = length` always suffices. -/
def cleanGo : Nat → List (List Char) → List (List Char)
  | 0, _ => []
  | _ + 1, [] => []
  | fuel + 1, ln :: rest =>
    (cleanIter (ln :: rest)).1 ++ cleanGo fuel (cleanIter (ln :: rest)).2

/-- `clean_file`'s `cleaned_lines` over an already-split list of lines. -/
def cleanFileLinesL (lines : List (List Char)) : List (List Char) :=
  cleanGo lines.length lines

/-- `clean_file`'s `cleaned_lines` for a raw text (text mode collapses the
line endings; `readlines` keeps the trailing newline on each line, which no
regex or `strip` in the loop can observe). -/
def clean_file_text (raw : String) : List String :=
  (cleanFileLinesL (pySplitlines raw.toList)).map String.mk



/-! ## Auxiliary predicates used by the stated properties -/

/-- The head (if any) is not whitespace. -/
def headNotWs : List Char → Bool
  | [] => true
  | c :: _ => !isPySpace c

/-- The last character (if any) is not whitespace. -/
def lastNotWs (l : List Char) : Bool :=
  headNotWs l.reverse

/-- No two adjacent whitespace characters. -/
def noWsRun : List Char → Bool
  | [] => true
  | [_] => true
  | a :: b :: r => !(isPySpace a && isPySpace b) && noWsRun (b :: r)

/-- Every whitespace character is a plain space. -/
def wsCanon (l : List Char) : Bool :=
  l.all fun c => !isPySpace c || c = ' '

/-- A tidy utterance: non-empty, no leading or trailing whitespace, and no
run of two or more consecutive whitespace characters. -/
def tidy (u : List Char) : Bool :=
  !u.isEmpty && headNotWs u && lastNotWs u && noWsRun u

/-- A line at which `extract_dialogue` closes the open utterance: blank,
timestamp, metadata, or a new speaker header. -/
def isBoundaryLine (line : List Char) : Bool :=
  (stripChars line).isEmpty || timestampMatch (stripChars line) ||
    metaMatch (stripChars line) || (speakerMatch line).isSome

/-- All emitted utterances and all accumulated parts are tidy. -/
def ExInv (s : ExState) : Prop :=
  (∀ u ∈ s.out, tidy u = true) ∧ ∀ p ∈ s.parts, tidy p = true

/-- The token grammar the claim ascribes to the speaker classifier, written
from the claim's words: 1–4 tokens of letters, digits, apostrophe,
parentheses, hyphen and slash, each token at most 25 characters, the first
character a letter, followed by a colon and optional trailing text.
Modelled from the claim, for comparison against `speakerMatch` (which is the
embedding of the source's `SPEAKER_RE`). -/
def claimTokChar (c : Char) : Bool :=
  isAsciiAlpha c || isAsciiDigit c || c = Char.ofNat 39 || c = '(' || c = ')' ||
    c = '-' || c = '/'

/-- A token as described by the claim: 1–25 characters from `claimTokChar`. -/
def claimTokOK (t : List Char) : Bool :=
  decide (1 ≤ t.length) && decide (t.length ≤ 25) && t.all claimTokChar

/-- The claim's description of a SpeakerStart line (see `claimTokChar`). -/
def claimSpeakerLine (line : List Char) : Bool :=
  match (breakAt ':' line).2 with
  | some _ =>
    (match splitSp (breakAt ':' line).1 with
     | t0 :: ts =>
       (match t0 with
        | c :: _ => isAsciiAlpha c
        | [] => false) &&
         claimTokOK t0 && decide (ts.length ≤ 3) && ts.all claimTokOK
     | [] => false)
  | none => false

/-- The declarative shape of a `SPEAKER_RE` match: the line is 1–4
space-separated tokens, the first of the `firstTokOK` shape and the rest of
the `laterTokOK` shape, followed by a colon and arbitrary trailing text. -/
def SpeakerShape (line : List Char) : Prop :=
  ∃ (t0 : List Char) (ts : List (List Char)) (rest : List Char),
    line = joinSp (t0 :: ts) ++ ':' :: rest ∧
      firstTokOK t0 = true ∧ ts.length ≤ 3 ∧ ∀ t ∈ ts, laterTokOK t = true

/-- The five line categories of the missions cleaner's classifier. -/
inductive LineCat where
  | blank
  | timestamp
  | metadata
  | speaker (remainder : List Char)
  | continuation (text : List Char)
deriving Repr, DecidableEq

/-- The line classifier implicit in `extract_dialogue`, in the source's
priority order (blank, timestamp, metadata, speaker header, continuation).
It has no rejecting state: every line receives exactly one category. -/
def classifyLine (line : List Char) : LineCat :=
  let stripped := stripChars line
  if stripped.isEmpty then .blank
  else if timestampMatch stripped then .timestamp
  else if metaMatch stripped then .metadata
  else
    match speakerMatch line with
    | some spoken => .speaker spoken
    | none => .continuation stripped

/-- The assembler transition as a function of the classified category; used
to state that `extract_dialogue` factors through the total classifier. -/
def exStepCat (s : ExState) : LineCat → ExState
  | .blank => ⟨flushSt s, []⟩
  | .timestamp => ⟨flushSt s, []⟩
  | .metadata => ⟨flushSt s, []⟩
  | .speaker spoken =>
    ⟨flushSt s, if (cleanTextL spoken).isEmpty then [] else [cleanTextL spoken]⟩
  | .continuation text =>
    if s.parts.isEmpty then s
    else ⟨s.out,
      if (cleanTextL text).isEmpty then s.parts else s.parts ++ [cleanTextL text]⟩

/-! ## Lemmas: whitespace stripping and collapsing -/

theorem headNotWs_dropWhile (l : List Char) :
    headNotWs (l.dropWhile isPySpace) = true := by
  induction l with
  | nil => rfl
  | cons a t ih =>
    rw [List.dropWhile_cons]
    by_cases h : isPySpace a = true
    · simpa [h] using ih
    · simp [h, headNotWs]

theorem dropWhile_eq_self_of_headNotWs (l : List Char)
    (h : headNotWs l = true) : l.dropWhile isPySpace = l := by
  cases l with
  | nil => rfl
  | cons a t =>
    simp only [headNotWs, Bool.not_eq_true'] at h
    simp [List.dropWhile_cons, h]

theorem stripChars_decomp (l : List Char) :
    ∃ junk, l.dropWhile isPySpace = stripChars l ++ junk := by
  refine ⟨((l.dropWhile isPySpace).reverse.takeWhile isPySpace).reverse, ?_⟩
  unfold stripChars
  have h := List.takeWhile_append_dropWhile (p := isPySpace)
    (l := (l.dropWhile isPySpace).reverse)
  calc l.dropWhile isPySpace
      = (l.dropWhile isPySpace).reverse.reverse := by rw [List.reverse_reverse]
    _ = ((l.dropWhile isPySpace).reverse.takeWhile isPySpace ++
          (l.dropWhile isPySpace).reverse.dropWhile isPySpace).reverse := by rw [h]
    _ = _ := by rw [List.reverse_append]

theorem headNotWs_append (a b : List Char) (ha : a ≠ []) :
    headNotWs (a ++ b) = headNotWs a := by
  cases a with
  | nil => exact absurd rfl ha
  | cons c t => rfl

theorem stripChars_headNotWs (l : List Char) :
    headNotWs (stripChars l) = true := by
  obtain ⟨junk, hj⟩ := stripChars_decomp l
  rcases eq_or_ne (stripChars l) [] with h | h
  · rw [h]; rfl
  · rw [← headNotWs_append _ junk h, ← hj]
    exact headNotWs_dropWhile l

theorem stripChars_lastNotWs (l : List Char) :
    lastNotWs (stripChars l) = true := by
  unfold lastNotWs stripChars
  rw [List.reverse_reverse]
  exact headNotWs_dropWhile _

theorem stripChars_eq_self (l : List Char)
    (h1 : headNotWs l = true) (h2 : lastNotWs l = true) : stripChars l = l := by
  unfold stripChars
  rw [dropWhile_eq_self_of_headNotWs l h1,
    dropWhile_eq_self_of_headNotWs l.reverse h2, List.reverse_reverse]

theorem stripChars_idem (l : List Char) :
    stripChars (stripChars l) = stripChars l :=
  stripChars_eq_self _ (stripChars_headNotWs l) (stripChars_lastNotWs l)

theorem mem_stripChars {c : Char} {l : List Char} (h : c ∈ stripChars l) : c ∈ l := by
  unfold stripChars at h
  rw [List.mem_reverse] at h
  have h2 := (List.dropWhile_sublist (l := (l.dropWhile isPySpace).reverse) isPySpace).mem h
  rw [List.mem_reverse] at h2
  exact (List.dropWhile_sublist (l := l) isPySpace).mem h2

theorem headNotWs_collapseAux_true (l : List Char) :
    headNotWs (collapseAux true l) = true := by
  induction l with
  | nil => rfl
  | cons a t ih =>
    by_cases h : isPySpace a = true
    · simpa [collapseAux, h] using ih
    · simp [collapseAux, h, headNotWs]

theorem noWsRun_cons (a : Char) (l : List Char)
    (hl : noWsRun l = true) (h : isPySpace a = false ∨ headNotWs l = true) :
    noWsRun (a :: l) = true := by
  cases l with
  | nil => rfl
  | cons b t =>
    have hb : (!(isPySpace a && isPySpace b)) = true := by
      rcases h with h | h
      · simp [h]
      · have hbb : isPySpace b = false := by
          simpa [headNotWs] using h
        simp [hbb]
    simp only [noWsRun, Bool.and_eq_true]
    exact ⟨hb, hl⟩

theorem noWsRun_tail (a : Char) (l : List Char)
    (h : noWsRun (a :: l) = true) : noWsRun l = true := by
  cases l with
  | nil => rfl
  | cons b t =>
    simp only [noWsRun, Bool.and_eq_true] at h
    exact h.2

theorem noWsRun_collapseAux (l : List Char) :
    ∀ b, noWsRun (collapseAux b l) = true := by
  induction l with
  | nil => intro b; rfl
  | cons a t ih =>
    intro b
    by_cases h : isPySpace a = true
    · cases b with
      | true => simpa [collapseAux, h] using ih true
      | false =>
        simp only [collapseAux, h, if_true]
        exact noWsRun_cons _ _ (ih true) (Or.inr (headNotWs_collapseAux_true t))
    · simp only [collapseAux, h, if_false, Bool.false_eq_true]
      exact noWsRun_cons _ _ (ih false) (Or.inl (by simpa using h))

theorem wsCanon_collapseAux (l : List Char) :
    ∀ b, wsCanon (collapseAux b l) = true := by
  induction l with
  | nil => intro b; rfl
  | cons a t ih =>
    intro b
    by_cases h : isPySpace a = true
    · cases b with
      | true => simpa [collapseAux, h] using ih true
      | false =>
        simp only [collapseAux, h, if_true]
        simpa [wsCanon] using ih true
    · simp only [collapseAux, h, if_false, Bool.false_eq_true]
      simp only [wsCanon, List.all_cons, Bool.and_eq_true]
      exact ⟨by simp [h], ih false⟩

theorem mem_collapseAux {c : Char} {l : List Char} :
    ∀ b, c ∈ collapseAux b l → c = ' ' ∨ c ∈ l := by
  induction l with
  | nil => intro b h; simp [collapseAux] at h
  | cons a t ih =>
    intro b h
    by_cases hws : isPySpace a = true
    · cases b with
      | true =>
        simp [collapseAux, hws] at h
        rcases ih true h with h' | h'
        · exact Or.inl h'
        · exact Or.inr (List.mem_cons_of_mem _ h')
      | false =>
        simp [collapseAux, hws] at h
        rcases h with h | h
        · exact Or.inl h
        · rcases ih true h with h' | h'
          · exact Or.inl h'
          · exact Or.inr (List.mem_cons_of_mem _ h')
    · simp [collapseAux, hws] at h
      rcases h with h | h
      · exact Or.inr (by simp [h])
      · rcases ih false h with h' | h'
        · exact Or.inl h'
        · exact Or.inr (List.mem_cons_of_mem _ h')

theorem collapseAux_eq_self (l : List Char) :
    wsCanon l = true → noWsRun l = true → collapseAux false l = l := by
  induction l with
  | nil => intro _ _; rfl
  | cons a t ih =>
    intro hc hr
    simp only [wsCanon, List.all_cons, Bool.and_eq_true] at hc
    by_cases hws : isPySpace a = true
    · have ha : a = ' ' := by
        have := hc.1
        simp [hws] at this
        exact this
      have ht : collapseAux false t = t := ih (by simpa [wsCanon] using hc.2) (noWsRun_tail _ _ hr)
      simp only [collapseAux, hws, if_true, ha]
      cases t with
      | nil => rfl
      | cons b u =>
        have hb : isPySpace b = false := by
          simp only [noWsRun, Bool.and_eq_true, ha] at hr
          have h1 := hr.1
          simp only [Bool.not_eq_true', Bool.and_eq_false_iff] at h1
          rcases h1 with h1 | h1
          · simp [isPySpace] at h1
          · exact h1
        simpa [collapseAux, hb] using ht
    · have ht : collapseAux false t = t := ih (by simpa [wsCanon] using hc.2) (noWsRun_tail _ _ hr)
      simp [collapseAux, hws, ht]

theorem noWsRun_dropWhile (p : Char → Bool) (l : List Char)
    (h : noWsRun l = true) : noWsRun (l.dropWhile p) = true := by
  induction l with
  | nil => exact h
  | cons a t ih =>
    rw [List.dropWhile_cons]
    by_cases hp : p a = true
    · simp only [hp, if_true]
      exact ih (noWsRun_tail _ _ h)
    · simpa [hp] using h

theorem noWsRun_iff_chain (l : List Char) :
    noWsRun l = true ↔
      List.Chain' (fun a b => ¬(isPySpace a = true ∧ isPySpace b = true)) l := by
  induction l with
  | nil => simp [noWsRun]
  | cons a t ih =>
    cases t with
    | nil => simp [noWsRun]
    | cons b u =>
      rw [List.chain'_cons, ← ih]
      constructor
      · intro h
        simp only [noWsRun, Bool.and_eq_true] at h
        refine ⟨fun hc => ?_, h.2⟩
        have h1 := h.1
        simp [hc.1, hc.2] at h1
      · intro h
        simp only [noWsRun, Bool.and_eq_true]
        refine ⟨?_, h.2⟩
        by_cases h1 : isPySpace a = true
        · by_cases h2 : isPySpace b = true
          · exact absurd ⟨h1, h2⟩ h.1
          · simp [h2]
        · simp [h1]

theorem noWsRun_reverse_of (l : List Char) (h : noWsRun l = true) :
    noWsRun l.reverse = true := by
  rw [noWsRun_iff_chain] at h ⊢
  rw [List.chain'_reverse]
  exact h.imp fun a b hab hc => hab ⟨hc.2, hc.1⟩

theorem noWsRun_stripChars (l : List Char) (h : noWsRun l = true) :
    noWsRun (stripChars l) = true := by
  unfold stripChars
  exact noWsRun_reverse_of _
    (noWsRun_dropWhile _ _ (noWsRun_reverse_of _ (noWsRun_dropWhile _ _ h)))

theorem wsCanon_of_mem {l m : List Char} (h : wsCanon l = true)
    (hsub : ∀ c, c ∈ m → c = ' ' ∨ c ∈ l) : wsCanon m = true := by
  rw [wsCanon, List.all_eq_true]
  intro c hc
  rcases hsub c hc with rfl | hcl
  · simp
  · exact (List.all_eq_true.mp h) c hcl

theorem wsCanon_stripChars (l : List Char) (h : wsCanon l = true) :
    wsCanon (stripChars l) = true :=
  wsCanon_of_mem h fun _ hc => Or.inr (mem_stripChars hc)

theorem strip_collapse_fix (y : List Char)
    (hc : wsCanon y = true) (hr : noWsRun y = true)
    (h1 : headNotWs y = true) (h2 : lastNotWs y = true) :
    stripChars (collapseWs y) = y := by
  unfold collapseWs
  rw [collapseAux_eq_self y hc hr]
  exact stripChars_eq_self y h1 h2

theorem strip_collapse_props (x : List Char) :
    wsCanon (stripChars (collapseWs x)) = true ∧
      noWsRun (stripChars (collapseWs x)) = true ∧
      headNotWs (stripChars (collapseWs x)) = true ∧
      lastNotWs (stripChars (collapseWs x)) = true :=
  ⟨wsCanon_stripChars _ (wsCanon_collapseAux x false),
   noWsRun_stripChars _ (noWsRun_collapseAux x false),
   stripChars_headNotWs _, stripChars_lastNotWs _⟩

theorem strip_collapse_idem (x : List Char) :
    stripChars (collapseWs (stripChars (collapseWs x))) = stripChars (collapseWs x) := by
  obtain ⟨hc, hr, h1, h2⟩ := strip_collapse_props x
  exact strip_collapse_fix _ hc hr h1 h2

theorem mem_strip_collapse {c : Char} {x : List Char}
    (h : c ∈ stripChars (collapseWs x)) : c = ' ' ∨ c ∈ x :=
  mem_collapseAux false (mem_stripChars h)

/-! ## Lemmas: the substitutions are inert without their trigger characters -/

theorem glossTry_none {c : Char} (r : List Char) (h : ¬c = '[') :
    glossTry (c :: r) = none := by
  unfold glossTry
  have hlit : "[glossary:".toList = '[' :: "glossary:".toList := rfl
  rw [hlit]
  simp [dropLit, h]

theorem bracketTry_none {c : Char} (r : List Char) (h : ¬c = '[') :
    bracketTry (c :: r) = none := by
  unfold bracketTry
  split
  · next heq =>
    rename_i r0
    cases heq
    exact absurd rfl h
  · rfl

theorem tagTry_none {c : Char} (r : List Char) (h : ¬c = '<') :
    tagTry (c :: r) = none := by
  unfold tagTry
  split
  · next heq =>
    rename_i r0
    cases heq
    exact absurd rfl h
  · rfl

theorem scanGo_gloss_id (fuel : Nat) :
    ∀ l : List Char, '[' ∉ l → scanGo glossTry fuel l = l := by
  induction fuel with
  | zero => intro l _; rfl
  | succ f ih =>
    intro l hl
    cases l with
    | nil => rfl
    | cons c rest =>
      have hc : ¬c = '[' := fun hcc => hl (by simp [hcc])
      simp only [scanGo, glossTry_none rest hc]
      rw [ih rest fun hm => hl (List.mem_cons_of_mem _ hm)]

theorem scanGo_bracket_id (fuel : Nat) :
    ∀ l : List Char, '[' ∉ l → scanGo bracketTry fuel l = l := by
  induction fuel with
  | zero => intro l _; rfl
  | succ f ih =>
    intro l hl
    cases l with
    | nil => rfl
    | cons c rest =>
      have hc : ¬c = '[' := fun hcc => hl (by simp [hcc])
      simp only [scanGo, bracketTry_none rest hc]
      rw [ih rest fun hm => hl (List.mem_cons_of_mem _ hm)]

theorem scanGo_tag_id (fuel : Nat) :
    ∀ l : List Char, '<' ∉ l → scanGo tagTry fuel l = l := by
  induction fuel with
  | zero => intro l _; rfl
  | succ f ih =>
    intro l hl
    cases l with
    | nil => rfl
    | cons c rest =>
      have hc : ¬c = '<' := fun hcc => hl (by simp [hcc])
      simp only [scanGo, tagTry_none rest hc]
      rw [ih rest fun hm => hl (List.mem_cons_of_mem _ hm)]

theorem rbGo_id (fuel : Nat) :
    ∀ l : List Char, '[' ∉ l → rbGo fuel l = l := by
  induction fuel with
  | zero => intro l _; rfl
  | succ f ih =>
    intro l hl
    cases l with
    | nil => rfl
    | cons c rest =>
      have hc : ¬c = '[' := fun hcc => hl (by simp [hcc])
      simp only [rbGo, hc, if_false, Bool.false_eq_true]
      rw [ih rest fun hm => hl (List.mem_cons_of_mem _ hm)]

theorem rspGo_id (fuel : Nat) :
    ∀ l : List Char, (∀ c ∈ l, isPunct1 c = false) → rspGo fuel l = l := by
  induction fuel with
  | zero => intro l _; rfl
  | succ f ih =>
    intro l hl
    cases l with
    | nil => rfl
    | cons c rest =>
      have ihrest := ih rest fun d hd => hl d (List.mem_cons_of_mem _ hd)
      by_cases hws : isPySpace c = true
      · cases hd : rest.dropWhile isPySpace with
        | nil => simp [rspGo, hws, hd, ihrest]
        | cons p rest2 =>
          have hp : isPunct1 p = false := by
            have hpmem : p ∈ rest.dropWhile isPySpace := by
              rw [hd]
              exact List.mem_cons_self _ _
            exact hl p
              (List.mem_cons_of_mem _ ((List.dropWhile_sublist isPySpace).mem hpmem))
          simp [rspGo, hws, hd, hp, ihrest]
      · simp [rspGo, hws, ihrest]

theorem removeLeadingPunct_id (l : List Char)
    (h : ∀ c ∈ l, isLeadPunct c = false) : removeLeadingPunct l = l := by
  cases l with
  | nil => rfl
  | cons c t => simp [removeLeadingPunct, h c (List.mem_cons_self c t)]

theorem punct1_of_lead {c : Char} (h : isLeadPunct c = false) : isPunct1 c = false := by
  by_contra hc
  simp only [Bool.not_eq_false] at hc
  simp [isLeadPunct, hc] at h

/-! ## Lemmas: normalisation without markup is collapse-and-strip -/

theorem cleanTextL_no_markup (l : List Char) (h1 : '[' ∉ l) (h2 : '<' ∉ l) :
    cleanTextL l = stripChars (collapseWs l) := by
  unfold cleanTextL glossarySub bracketTermSub tagSub
  rw [scanGo_gloss_id _ _ h1]
  rw [scanGo_bracket_id _ _ h1]
  rw [scanGo_tag_id _ _ h2]

theorem normalizeTextL_no_markup (l : List Char)
    (h1 : '[' ∉ l) (hp : ∀ c ∈ l, isLeadPunct c = false) :
    normalizeTextL l = stripChars (collapseWs l) := by
  unfold normalizeTextL removeBrackets removeSpaceBeforePunct
  rw [rbGo_id _ _ h1]
  have hmem : ∀ c ∈ stripChars (collapseWs l), isLeadPunct c = false := by
    intro c hc
    rcases mem_strip_collapse hc with rfl | hcl
    · rfl
    · exact hp c hcl
  rw [rspGo_id _ _ fun c hc => punct1_of_lead (hmem c hc)]
  refine removeLeadingPunct_id _ hmem

/-! ## Lemmas: split and join on spaces, breakAt -/

theorem splitSp_ne_nil (l : List Char) : splitSp l ≠ [] := by
  cases l with
  | nil => simp [splitSp]
  | cons c r =>
    by_cases h : c = ' '
    · simp [splitSp, h]
    · simp only [splitSp, h, if_false, Bool.false_eq_true]
      cases hs : splitSp r with
      | nil => simp
      | cons p ps => simp

theorem joinSp_cons (p : List Char) (x : List (List Char))
    (h : x ≠ []) : joinSp (p :: x) = p ++ ' ' :: joinSp x := by
  cases x with
  | nil => exact absurd rfl h
  | cons q qs => rfl

theorem joinSp_splitSp (l : List Char) : joinSp (splitSp l) = l := by
  induction l with
  | nil => rfl
  | cons c r ih =>
    by_cases h : c = ' '
    · subst h
      have h1 : splitSp (' ' :: r) = [] :: splitSp r := by simp [splitSp]
      rw [h1, joinSp_cons _ _ (splitSp_ne_nil r), ih]
      rfl
    · simp only [splitSp, h, if_false, Bool.false_eq_true]
      cases hs : splitSp r with
      | nil => exact absurd hs (splitSp_ne_nil r)
      | cons p ps =>
        cases ps with
        | nil =>
          have : joinSp [p] = r := by rw [← hs, ih]
          simpa [joinSp] using this
        | cons q qs =>
          have : joinSp (p :: q :: qs) = r := by rw [← hs, ih]
          have h2 : joinSp ((c :: p) :: q :: qs) = c :: joinSp (p :: q :: qs) := by
            simp [joinSp]
          rw [h2, this]

theorem splitSp_no_sep (p : List Char) (h : ' ' ∉ p) : splitSp p = [p] := by
  induction p with
  | nil => rfl
  | cons c r ih =>
    have hc : ¬c = ' ' := fun hcc => h (by simp [hcc])
    have hr : splitSp r = [r] := ih fun hm => h (List.mem_cons_of_mem _ hm)
    simp [splitSp, hc, hr]

theorem splitSp_append_sep (p t : List Char) (h : ' ' ∉ p) :
    splitSp (p ++ ' ' :: t) = p :: splitSp t := by
  induction p with
  | nil => simp [splitSp]
  | cons c r ih =>
    have hc : ¬c = ' ' := fun hcc => h (by simp [hcc])
    have hr := ih fun hm => h (List.mem_cons_of_mem _ hm)
    show splitSp (c :: (r ++ ' ' :: t)) = (c :: r) :: splitSp t
    simp only [splitSp, hc, if_false, Bool.false_eq_true]
    rw [hr]

theorem splitSp_joinSp (ps : List (List Char)) (hne : ps ≠ [])
    (h : ∀ p ∈ ps, ' ' ∉ p) : splitSp (joinSp ps) = ps := by
  induction ps with
  | nil => exact absurd rfl hne
  | cons p qs ih =>
    cases qs with
    | nil =>
      simpa [joinSp] using splitSp_no_sep p (h p (List.mem_cons_self _ _))
    | cons q rs =>
      rw [joinSp_cons p (q :: rs) (by simp) ]
      rw [splitSp_append_sep _ _ (h p (List.mem_cons_self _ _))]
      rw [ih (by simp) fun x hx => h x (List.mem_cons_of_mem _ hx)]

theorem mem_joinSp {c : Char} :
    ∀ ps : List (List Char), c ∈ joinSp ps → c = ' ' ∨ ∃ p ∈ ps, c ∈ p := by
  intro ps
  induction ps with
  | nil => intro h; simp [joinSp] at h
  | cons p qs ih =>
    intro h
    cases qs with
    | nil =>
      simp only [joinSp] at h
      exact Or.inr ⟨p, List.mem_cons_self _ _, h⟩
    | cons q rs =>
      rw [joinSp_cons p (q :: rs) (by simp)] at h
      rcases List.mem_append.mp h with h | h
      · exact Or.inr ⟨p, List.mem_cons_self _ _, h⟩
      · rcases List.mem_cons.mp h with h | h
        · exact Or.inl h
        · rcases ih h with h' | ⟨x, hx, hcx⟩
          · exact Or.inl h'
          · exact Or.inr ⟨x, List.mem_cons_of_mem _ hx, hcx⟩

theorem breakAt_eq (t : Char) :
    ∀ l pre post, breakAt t l = (pre, some post) → l = pre ++ t :: post ∧ t ∉ pre := by
  intro l
  induction l with
  | nil => intro pre post h; simp [breakAt] at h
  | cons c rest ih =>
    intro pre post h
    by_cases hc : c = t
    · subst hc
      simp [breakAt] at h
      obtain ⟨h1, h2⟩ := h
      subst h1
      subst h2
      simp
    · simp only [breakAt, hc, if_false, Bool.false_eq_true] at h
      cases hb : breakAt t rest with
      | mk pre' post' =>
        rw [hb] at h
        simp only [Prod.mk.injEq] at h
        obtain ⟨h1, h2⟩ := h
        cases post' with
        | none => simp at h2
        | some post'' =>
          have hpost : post'' = post := by simpa using h2
          obtain ⟨hl, hnotin⟩ := ih pre' post'' hb
          subst hpost
          constructor
          · rw [← h1, hl]; rfl
          · rw [← h1]
            intro hmem
            rcases List.mem_cons.mp hmem with h' | h'
            · exact hc h'.symm
            · exact hnotin h'

theorem breakAt_of_decomp (t : Char) (A B : List Char) (h : t ∉ A) :
    breakAt t (A ++ t :: B) = (A, some B) := by
  induction A with
  | nil => simp [breakAt]
  | cons c r ih =>
    have hc : ¬c = t := fun hcc => h (by simp [hcc])
    show breakAt t (c :: (r ++ t :: B)) = (c :: r, some B)
    simp only [breakAt, hc, if_false, Bool.false_eq_true]
    rw [ih fun hm => h (List.mem_cons_of_mem _ hm)]

/-! ## Lemmas: tidiness -/

theorem tidy_iff (u : List Char) :
    tidy u = true ↔
      u ≠ [] ∧ headNotWs u = true ∧ lastNotWs u = true ∧ noWsRun u = true := by
  simp [tidy, Bool.and_eq_true, List.isEmpty_iff, and_assoc]

theorem headNotWs_some {l : List Char} {c : Char} (h : headNotWs l = true)
    (hc : l.head? = some c) : isPySpace c = false := by
  cases l with
  | nil => simp at hc
  | cons a t =>
    simp only [List.head?_cons, Option.some.injEq] at hc
    subst hc
    simpa [headNotWs] using h

theorem noWsRun_append (a b : List Char) (ha : noWsRun a = true) (hb : noWsRun b = true)
    (hmid : lastNotWs a = true ∨ headNotWs b = true) : noWsRun (a ++ b) = true := by
  rw [noWsRun_iff_chain] at ha hb ⊢
  rw [List.chain'_append]
  refine ⟨ha, hb, ?_⟩
  intro x hx y hy
  intro hcontra
  rcases hmid with hm | hm
  · have hx' : a.reverse.head? = some x := by
      rw [List.head?_reverse]
      exact Option.mem_def.mp hx
    have := headNotWs_some hm hx'
    rw [this] at hcontra
    exact absurd hcontra.1 (by simp)
  · have := headNotWs_some hm (Option.mem_def.mp hy)
    rw [this] at hcontra
    exact absurd hcontra.2 (by simp)

theorem tidy_joinSp : ∀ ps : List (List Char), ps ≠ [] →
    (∀ p ∈ ps, tidy p = true) → tidy (joinSp ps) = true := by
  intro ps
  induction ps with
  | nil => intro h; exact absurd rfl h
  | cons p qs ih =>
    intro _ h
    have hp := h p (List.mem_cons_self _ _)
    cases qs with
    | nil => simpa [joinSp] using hp
    | cons q rs =>
      have hrest : tidy (joinSp (q :: rs)) = true :=
        ih (by simp) fun x hx => h x (List.mem_cons_of_mem _ hx)
      rw [joinSp_cons p (q :: rs) (by simp)]
      rw [tidy_iff] at hp hrest ⊢
      obtain ⟨hpne, hph, hpl, hpr⟩ := hp
      obtain ⟨hjne, hjh, hjl, hjr⟩ := hrest
      refine ⟨by simp, ?_, ?_, ?_⟩
      · rw [headNotWs_append p _ hpne]; exact hph
      · unfold lastNotWs
        rw [List.reverse_append, List.reverse_cons]
        rw [headNotWs_append _ _ (by simp)]
        rw [headNotWs_append _ _ (by simpa using hjne)]
        exact hjl
      · refine noWsRun_append p (' ' :: joinSp (q :: rs)) hpr ?_ (Or.inl hpl)
        exact noWsRun_cons ' ' _ hjr (Or.inr hjh)

theorem cleanTextL_tidy (l : List Char) (h : cleanTextL l ≠ []) :
    tidy (cleanTextL l) = true := by
  have hp := strip_collapse_props (tagSub (bracketTermSub (glossarySub l)))
  rw [tidy_iff]
  exact ⟨h, hp.2.2.1, hp.2.2.2, hp.2.1⟩

/-! ## Lemmas: the extract_dialogue step, by branch -/

theorem exStep_blank {s : ExState} {line : List Char}
    (h : (stripChars line).isEmpty = true) : exStep s line = ⟨flushSt s, []⟩ := by
  simp [exStep, h]

theorem exStep_ts {s : ExState} {line : List Char}
    (h1 : (stripChars line).isEmpty = false)
    (h2 : timestampMatch (stripChars line) = true) :
    exStep s line = ⟨flushSt s, []⟩ := by
  simp [exStep, h1, h2]

theorem exStep_meta {s : ExState} {line : List Char}
    (h1 : (stripChars line).isEmpty = false)
    (h2 : timestampMatch (stripChars line) = false)
    (h3 : metaMatch (stripChars line) = true) :
    exStep s line = ⟨flushSt s, []⟩ := by
  simp [exStep, h1, h2, h3]

theorem exStep_speaker {s : ExState} {line spoken : List Char}
    (h1 : (stripChars line).isEmpty = false)
    (h2 : timestampMatch (stripChars line) = false)
    (h3 : metaMatch (stripChars line) = false)
    (h4 : speakerMatch line = some spoken) :
    exStep s line =
      ⟨flushSt s, if (cleanTextL spoken).isEmpty then [] else [cleanTextL spoken]⟩ := by
  simp [exStep, h1, h2, h3, h4]

theorem exStep_cont {s : ExState} {line : List Char}
    (h1 : (stripChars line).isEmpty = false)
    (h2 : timestampMatch (stripChars line) = false)
    (h3 : metaMatch (stripChars line) = false)
    (h4 : speakerMatch line = none) :
    exStep s line =
      if s.parts.isEmpty then s
      else ⟨s.out,
        if (cleanTextL (stripChars line)).isEmpty then s.parts
        else s.parts ++ [cleanTextL (stripChars line)]⟩ := by
  simp [exStep, h1, h2, h3, h4]

/-! ## Lemmas: assembler invariants -/

theorem flushSt_tidy {s : ExState} (h : ExInv s) : ∀ u ∈ flushSt s, tidy u = true := by
  intro u hu
  unfold flushSt at hu
  by_cases hp : s.parts.isEmpty
  · rw [if_pos hp] at hu
    exact h.1 u hu
  · rw [if_neg hp] at hu
    rcases List.mem_append.mp hu with hu | hu
    · exact h.1 u hu
    · have hu' : u = joinSp s.parts := by simpa using hu
      subst hu'
      refine tidy_joinSp s.parts ?_ h.2
      simpa [List.isEmpty_iff] using hp

theorem mem_ite_singleton {u t : List Char} {c : Bool}
    (h : u ∈ (if c = true then [t] else [])) : c = true ∧ u = t := by
  by_cases hc : c = true
  · rw [if_pos hc] at h
    exact ⟨hc, by simpa using h⟩
  · rw [if_neg hc] at h
    simp at h

theorem exStep_inv {s : ExState} (line : List Char) (h : ExInv s) :
    ExInv (exStep s line) := by
  by_cases h1 : (stripChars line).isEmpty
  · rw [exStep_blank h1]
    exact ⟨flushSt_tidy h, by intro p hp; simp at hp⟩
  · rw [Bool.not_eq_true] at h1
    by_cases h2 : timestampMatch (stripChars line) = true
    · rw [exStep_ts h1 h2]
      exact ⟨flushSt_tidy h, by intro p hp; simp at hp⟩
    · rw [Bool.not_eq_true] at h2
      by_cases h3 : metaMatch (stripChars line) = true
      · rw [exStep_meta h1 h2 h3]
        exact ⟨flushSt_tidy h, by intro p hp; simp at hp⟩
      · rw [Bool.not_eq_true] at h3
        cases h4 : speakerMatch line with
        | some spoken =>
          rw [exStep_speaker h1 h2 h3 h4]
          refine ⟨flushSt_tidy h, ?_⟩
          intro p hp
          by_cases hcl : (cleanTextL spoken).isEmpty
          · rw [if_pos hcl] at hp; simp at hp
          · rw [if_neg hcl] at hp
            have hp' : p = cleanTextL spoken := by simpa using hp
            subst hp'
            exact cleanTextL_tidy spoken (by simpa [List.isEmpty_iff] using hcl)
        | none =>
          rw [exStep_cont h1 h2 h3 h4]
          by_cases hp : s.parts.isEmpty
          · rw [if_pos hp]; exact h
          · rw [if_neg hp]
            refine ⟨h.1, ?_⟩
            intro p hpm
            by_cases hcl : (cleanTextL (stripChars line)).isEmpty
            · rw [if_pos hcl] at hpm
              exact h.2 p hpm
            · rw [if_neg hcl] at hpm
              rcases List.mem_append.mp hpm with hm | hm
              · exact h.2 p hm
              · have hp' : p = cleanTextL (stripChars line) := by simpa using hm
                subst hp'
                exact cleanTextL_tidy _ (by simpa [List.isEmpty_iff] using hcl)

theorem foldl_exStep_inv (lines : List (List Char)) :
    ∀ s : ExState, ExInv s → ExInv (lines.foldl exStep s) := by
  induction lines with
  | nil => intro s h; exact h
  | cons line rest ih =>
    intro s h
    exact ih (exStep s line) (exStep_inv line h)

theorem extractDialogueLines_tidy (lines : List (List Char)) :
    ∀ u ∈ extractDialogueLines lines, tidy u = true := by
  unfold extractDialogueLines
  exact flushSt_tidy
    (foldl_exStep_inv lines ⟨[], []⟩ ⟨by intro u hu; simp at hu, by intro p hp; simp at hp⟩)

/-! ## Lemmas: the assembler only appends to its output -/

theorem flushSt_append (s : ExState) :
    ∃ e, flushSt s = s.out ++ e := by
  unfold flushSt
  by_cases hp : s.parts.isEmpty
  · exact ⟨[], by rw [if_pos hp]; simp⟩
  · exact ⟨[joinSp s.parts], by rw [if_neg hp]⟩

theorem exStep_out_append (s : ExState) (line : List Char) :
    ∃ e, (exStep s line).out = s.out ++ e := by
  by_cases h1 : (stripChars line).isEmpty
  · rw [exStep_blank h1]; exact flushSt_append s
  · rw [Bool.not_eq_true] at h1
    by_cases h2 : timestampMatch (stripChars line) = true
    · rw [exStep_ts h1 h2]; exact flushSt_append s
    · rw [Bool.not_eq_true] at h2
      by_cases h3 : metaMatch (stripChars line) = true
      · rw [exStep_meta h1 h2 h3]; exact flushSt_append s
      · rw [Bool.not_eq_true] at h3
        cases h4 : speakerMatch line with
        | some spoken => rw [exStep_speaker h1 h2 h3 h4]; exact flushSt_append s
        | none =>
          rw [exStep_cont h1 h2 h3 h4]
          by_cases hp : s.parts.isEmpty
          · rw [if_pos hp]; exact ⟨[], by simp⟩
          · rw [if_neg hp]; exact ⟨[], by simp⟩

theorem foldl_exStep_out_append (lines : List (List Char)) :
    ∀ s : ExState, ∃ e, (lines.foldl exStep s).out = s.out ++ e := by
  induction lines with
  | nil => intro s; exact ⟨[], by simp⟩
  | cons line rest ih =>
    intro s
    obtain ⟨e1, he1⟩ := exStep_out_append s line
    obtain ⟨e2, he2⟩ := ih (exStep s line)
    exact ⟨e1 ++ e2, by rw [List.foldl_cons, he2, he1, List.append_assoc]⟩

theorem exStep_boundary {s : ExState} {line : List Char}
    (h : isBoundaryLine line = true) :
    (exStep s line).out = flushSt s ∧
      (exStep s line).parts = (exStep ⟨[], []⟩ line).parts := by
  unfold isBoundaryLine at h
  by_cases h1 : (stripChars line).isEmpty
  · rw [exStep_blank h1, exStep_blank h1]
    exact ⟨rfl, rfl⟩
  · rw [Bool.not_eq_true] at h1
    by_cases h2 : timestampMatch (stripChars line) = true
    · rw [exStep_ts h1 h2, exStep_ts h1 h2]
      exact ⟨rfl, rfl⟩
    · rw [Bool.not_eq_true] at h2
      by_cases h3 : metaMatch (stripChars line) = true
      · rw [exStep_meta h1 h2 h3, exStep_meta h1 h2 h3]
        exact ⟨rfl, rfl⟩
      · rw [Bool.not_eq_true] at h3
        cases h4 : speakerMatch line with
        | some spoken =>
          rw [exStep_speaker h1 h2 h3 h4, exStep_speaker h1 h2 h3 h4]
          exact ⟨rfl, rfl⟩
        | none =>
          rw [h1, h2, h3, h4] at h
          simp at h

/-! ## Lemmas: the clean_file loop, by branch -/

theorem lookScan_blank {ln : List Char} {t : List (List Char)}
    (h : (stripChars ln).isEmpty = true) :
    lookScan (ln :: t) = ((lookScan t).1, (lookScan t).2 + 1) := by
  simp [lookScan, h]

theorem lookScan_ts {ln : List Char} {t : List (List Char)}
    (h1 : (stripChars ln).isEmpty = false) (h2 : (tsMatch ln).isSome = true) :
    lookScan (ln :: t) = ([], 0) := by
  simp [lookScan, h1, h2]

theorem lookScan_nd {ln : List Char} {t : List (List Char)}
    (h1 : (stripChars ln).isEmpty = false) (h2 : (tsMatch ln).isSome = false)
    (h3 : isNonDialogue (stripChars ln) = true) :
    lookScan (ln :: t) = ([], 0) := by
  simp [lookScan, h1, h2, h3]

theorem lookScan_keep_stop {ln : List Char} {t : List (List Char)}
    (h1 : (stripChars ln).isEmpty = false) (h2 : (tsMatch ln).isSome = false)
    (h3 : isNonDialogue (stripChars ln) = false)
    (h4 : (!(normalizeTextL (stripChars ln)).isEmpty &&
      (normalizeTextL (stripChars ln)).any isAlnumChar) = true)
    (h5 : sentenceEnd (stripChars ln) = true) :
    lookScan (ln :: t) = ([normalizeTextL (stripChars ln)], 0) := by
  simp [lookScan, h1, h2, h3, h4, h5]

theorem lookScan_keep_go {ln : List Char} {t : List (List Char)}
    (h1 : (stripChars ln).isEmpty = false) (h2 : (tsMatch ln).isSome = false)
    (h3 : isNonDialogue (stripChars ln) = false)
    (h4 : (!(normalizeTextL (stripChars ln)).isEmpty &&
      (normalizeTextL (stripChars ln)).any isAlnumChar) = true)
    (h5 : sentenceEnd (stripChars ln) = false) :
    lookScan (ln :: t) =
      (normalizeTextL (stripChars ln) :: (lookScan t).1, (lookScan t).2 + 1) := by
  simp [lookScan, h1, h2, h3, h4, h5]

theorem lookScan_skip {ln : List Char} {t : List (List Char)}
    (h1 : (stripChars ln).isEmpty = false) (h2 : (tsMatch ln).isSome = false)
    (h3 : isNonDialogue (stripChars ln) = false)
    (h4 : (!(normalizeTextL (stripChars ln)).isEmpty &&
      (normalizeTextL (stripChars ln)).any isAlnumChar) = false) :
    lookScan (ln :: t) = ((lookScan t).1, (lookScan t).2 + 1) := by
  simp [lookScan, h1, h2, h3, h4]

theorem lookScan_le (rest : List (List Char)) : (lookScan rest).2 ≤ rest.length := by
  induction rest with
  | nil => simp [lookScan]
  | cons ln t ih =>
    by_cases h1 : (stripChars ln).isEmpty = true
    · rw [lookScan_blank h1]
      simpa using Nat.succ_le_succ ih
    · rw [Bool.not_eq_true] at h1
      by_cases h2 : (tsMatch ln).isSome = true
      · rw [lookScan_ts h1 h2]; simp
      · rw [Bool.not_eq_true] at h2
        by_cases h3 : isNonDialogue (stripChars ln) = true
        · rw [lookScan_nd h1 h2 h3]; simp
        · rw [Bool.not_eq_true] at h3
          by_cases h4 : (!(normalizeTextL (stripChars ln)).isEmpty &&
              (normalizeTextL (stripChars ln)).any isAlnumChar) = true
          · by_cases h5 : sentenceEnd (stripChars ln) = true
            · rw [lookScan_keep_stop h1 h2 h3 h4 h5]; simp
            · rw [Bool.not_eq_true] at h5
              rw [lookScan_keep_go h1 h2 h3 h4 h5]
              simpa using Nat.succ_le_succ ih
          · rw [Bool.not_eq_true] at h4
            rw [lookScan_skip h1 h2 h3 h4]
            simpa using Nat.succ_le_succ ih

theorem cleanIter_nomatch {ln : List Char} {rest : List (List Char)}
    (h : tsMatch ln = none) : cleanIter (ln :: rest) = ([], rest) := by
  simp [cleanIter, h]

theorem cleanIter_text {ln g1 : List Char} {rest : List (List Char)}
    (h : tsMatch ln = some g1) (h2 : (stripChars g1).isEmpty = false) :
    cleanIter (ln :: rest) =
      ((if !(normalizeTextL (stripChars g1)).isEmpty &&
          (normalizeTextL (stripChars g1)).any isAlnumChar
        then [normalizeTextL (stripChars g1)] else []), rest) := by
  simp [cleanIter, h, h2]

theorem cleanIter_look_empty {ln g1 : List Char} {rest : List (List Char)}
    (h : tsMatch ln = some g1) (h2 : (stripChars g1).isEmpty = true)
    (h3 : (lookScan rest).1.isEmpty = true) :
    cleanIter (ln :: rest) = ([], rest) := by
  simp [cleanIter, h, h2, h3]

theorem cleanIter_look {ln g1 : List Char} {rest : List (List Char)}
    (h : tsMatch ln = some g1) (h2 : (stripChars g1).isEmpty = true)
    (h3 : (lookScan rest).1.isEmpty = false) :
    cleanIter (ln :: rest) =
      ((if !(normalizeTextL (joinSp (lookScan rest).1)).isEmpty &&
          (normalizeTextL (joinSp (lookScan rest).1)).any isAlnumChar
        then [normalizeTextL (joinSp (lookScan rest).1)] else []),
        rest.drop ((lookScan rest).2 + 1)) := by
  simp [cleanIter, h, h2, h3]

theorem cleanIter_progress (ln : List Char) (rest : List (List Char)) :
    ((cleanIter (ln :: rest)).2).length < (ln :: rest).length := by
  cases h : tsMatch ln with
  | none => rw [cleanIter_nomatch h]; simp
  | some g1 =>
    by_cases h2 : (stripChars g1).isEmpty = true
    · by_cases h3 : (lookScan rest).1.isEmpty = true
      · rw [cleanIter_look_empty h h2 h3]; simp
      · rw [Bool.not_eq_true] at h3
        rw [cleanIter_look h h2 h3]
        simp only [List.length_drop, List.length_cons]
        omega
    · rw [Bool.not_eq_true] at h2
      rw [cleanIter_text h h2]
      simp

theorem cleanGo_nil : ∀ fuel, cleanGo fuel [] = [] := by
  intro fuel
  cases fuel <;> rfl

theorem cleanGo_succ (fuel : Nat) (ln : List Char) (rest : List (List Char)) :
    cleanGo (fuel + 1) (ln :: rest) =
      (cleanIter (ln :: rest)).1 ++ cleanGo fuel (cleanIter (ln :: rest)).2 := rfl

theorem cleanGo_fuel : ∀ (f : Nat) (lines : List (List Char)) (g : Nat),
    lines.length ≤ f → lines.length ≤ g → cleanGo f lines = cleanGo g lines := by
  intro f
  induction f with
  | zero =>
    intro lines g hf _
    have hl : lines = [] := by
      cases lines with
      | nil => rfl
      | cons a b => simp at hf
    rw [hl, cleanGo_nil, cleanGo_nil]
  | succ f ih =>
    intro lines g hf hg
    cases lines with
    | nil => rw [cleanGo_nil, cleanGo_nil]
    | cons ln rest =>
      cases g with
      | zero => simp at hg
      | succ g' =>
        rw [cleanGo_succ, cleanGo_succ]
        have hlt := cleanIter_progress ln rest
        simp only [List.length_cons] at hlt hf hg
        congr 1
        exact ih _ g' (by omega) (by omega)

theorem cleanIter_fst_mem {ln : List Char} {rest : List (List Char)} {u : List Char}
    (h : u ∈ (cleanIter (ln :: rest)).1) :
    u ≠ [] ∧ u.any isAlnumChar = true := by
  cases ht : tsMatch ln with
  | none => rw [cleanIter_nomatch ht] at h; simp at h
  | some g1 =>
    by_cases h2 : (stripChars g1).isEmpty = true
    · by_cases h3 : (lookScan rest).1.isEmpty = true
      · rw [cleanIter_look_empty ht h2 h3] at h; simp at h
      · rw [Bool.not_eq_true] at h3
        rw [cleanIter_look ht h2 h3] at h
        obtain ⟨hc, rfl⟩ := mem_ite_singleton h
        simp only [Bool.and_eq_true, Bool.not_eq_true'] at hc
        exact ⟨by simpa [List.isEmpty_iff] using hc.1, hc.2⟩
    · rw [Bool.not_eq_true] at h2
      rw [cleanIter_text ht h2] at h
      obtain ⟨hc, rfl⟩ := mem_ite_singleton h
      simp only [Bool.and_eq_true, Bool.not_eq_true'] at hc
      exact ⟨by simpa [List.isEmpty_iff] using hc.1, hc.2⟩

theorem cleanGo_mem : ∀ (fuel : Nat) (lines : List (List Char)) (u : List Char),
    u ∈ cleanGo fuel lines → u ≠ [] ∧ u.any isAlnumChar = true := by
  intro fuel
  induction fuel with
  | zero => intro lines u h; simp [cleanGo] at h
  | succ f ih =>
    intro lines u h
    cases lines with
    | nil => simp [cleanGo] at h
    | cons ln rest =>
      rw [cleanGo_succ] at h
      rcases List.mem_append.mp h with h | h
      · exact cleanIter_fst_mem h
      · exact ih _ u h

/-! ## Lemmas: the speaker grammar -/

theorem tokChar_not_colon {c : Char} (h : isTokenChar c = true) : c ≠ ':' := by
  intro hc
  subst hc
  exact absurd h (by decide)

theorem tokChar_not_space {c : Char} (h : isTokenChar c = true) : c ≠ ' ' := by
  intro hc
  subst hc
  exact absurd h (by decide)

theorem firstTok_chars {t : List Char} (h : firstTokOK t = true) :
    ∀ c ∈ t, c ≠ ':' ∧ c ≠ ' ' := by
  cases t with
  | nil => simp [firstTokOK] at h
  | cons c cs =>
    simp only [firstTokOK, Bool.and_eq_true, List.all_eq_true] at h
    intro d hd
    rcases List.mem_cons.mp hd with h' | h'
    · subst h'
      have halpha := h.1.1
      constructor
      · intro hc; rw [hc] at halpha; exact absurd halpha (by decide)
      · intro hc; rw [hc] at halpha; exact absurd halpha (by decide)
    · have := h.1.2 d h'
      exact ⟨tokChar_not_colon this, tokChar_not_space this⟩

theorem laterTok_chars {t : List Char} (h : laterTokOK t = true) :
    ∀ c ∈ t, c ≠ ':' ∧ c ≠ ' ' := by
  simp only [laterTokOK, Bool.and_eq_true, List.all_eq_true] at h
  intro d hd
  have := h.2 d hd
  exact ⟨tokChar_not_colon this, tokChar_not_space this⟩

theorem speakerMatch_isSome_iff (line : List Char) :
    (speakerMatch line).isSome = true ↔ SpeakerShape line := by
  constructor
  · intro h
    unfold speakerMatch at h
    cases hb : breakAt ':' line with
    | mk pre popt =>
      rw [hb] at h
      dsimp only at h
      cases popt with
      | none => simp at h
      | some post =>
        cases hs : splitSp pre with
        | nil => rw [hs] at h; simp at h
        | cons t0 ts =>
          rw [hs] at h
          dsimp only at h
          by_cases hcond :
              (firstTokOK t0 && decide (ts.length ≤ 3) && ts.all laterTokOK) = true
          · obtain ⟨hline, _⟩ := breakAt_eq ':' line pre post hb
            simp only [Bool.and_eq_true, decide_eq_true_eq, List.all_eq_true] at hcond
            refine ⟨t0, ts, post, ?_, hcond.1.1, hcond.1.2, fun t ht => hcond.2 t ht⟩
            rw [hline]
            have hj : joinSp (t0 :: ts) = pre := by
              rw [← hs, joinSp_splitSp]
            rw [hj]
          · rw [if_neg hcond] at h
            simp at h
  · rintro ⟨t0, ts, rest, hline, h1, h2, h3⟩
    have hnc : ':' ∉ joinSp (t0 :: ts) := by
      intro hm
      rcases mem_joinSp _ hm with hm | ⟨p, hp, hcp⟩
      · exact absurd hm (by decide)
      · rcases List.mem_cons.mp hp with hp' | hp'
        · subst hp'
          exact (firstTok_chars h1 ':' hcp).1 rfl
        · exact (laterTok_chars (h3 p hp') ':' hcp).1 rfl
    have hsp : splitSp (joinSp (t0 :: ts)) = t0 :: ts := by
      refine splitSp_joinSp _ (by simp) ?_
      intro p hp hm
      rcases List.mem_cons.mp hp with hp' | hp'
      · subst hp'
        exact (firstTok_chars h1 ' ' hm).2 rfl
      · exact (laterTok_chars (h3 p hp') ' ' hm).2 rfl
    have hcond : (firstTokOK t0 && decide (ts.length ≤ 3) && ts.all laterTokOK) = true := by
      simp only [Bool.and_eq_true, decide_eq_true_eq, List.all_eq_true]
      exact ⟨⟨h1, h2⟩, h3⟩
    have hsm : speakerMatch line = some (rest.dropWhile isPySpace) := by
      unfold speakerMatch
      rw [hline, breakAt_of_decomp ':' _ rest hnc]
      dsimp only
      rw [hsp]
      dsimp only
      rw [if_pos hcond]
    rw [hsm]
    rfl

/-! ## Lemmas: the classifier branches are disjoint on speaker lines -/

theorem alpha_not_ws {c : Char} (h : isAsciiAlpha c = true) : isPySpace c = false := by
  by_contra hc
  rw [Bool.not_eq_false] at hc
  simp only [isPySpace, Bool.or_eq_true, decide_eq_true_eq] at hc
  rcases hc with ((((h1 | h1) | h1) | h1) | h1) | h1 <;>
    (subst h1; exact absurd h (by decide))

theorem stripChars_decomp_ws (l : List Char) :
    ∃ junk, l.dropWhile isPySpace = stripChars l ++ junk ∧
      ∀ c ∈ junk, isPySpace c = true := by
  refine ⟨((l.dropWhile isPySpace).reverse.takeWhile isPySpace).reverse, ?_, ?_⟩
  · unfold stripChars
    have h := List.takeWhile_append_dropWhile (p := isPySpace)
      (l := (l.dropWhile isPySpace).reverse)
    calc l.dropWhile isPySpace
        = (l.dropWhile isPySpace).reverse.reverse := by rw [List.reverse_reverse]
      _ = ((l.dropWhile isPySpace).reverse.takeWhile isPySpace ++
            (l.dropWhile isPySpace).reverse.dropWhile isPySpace).reverse := by rw [h]
      _ = _ := by rw [List.reverse_append]
  · intro c hc
    rw [List.mem_reverse] at hc
    exact List.mem_takeWhile_imp hc

theorem speakerMatch_head_alpha {line : List Char}
    (h : (speakerMatch line).isSome = true) :
    ∃ c rest, line = c :: rest ∧ isAsciiAlpha c = true := by
  rw [speakerMatch_isSome_iff] at h
  obtain ⟨t0, ts, rest, hline, h1, _, _⟩ := h
  cases t0 with
  | nil => simp [firstTokOK] at h1
  | cons c cs =>
    simp only [firstTokOK, Bool.and_eq_true] at h1
    cases ts with
    | nil =>
      exact ⟨c, cs ++ ':' :: rest, by simpa [joinSp] using hline, h1.1.1⟩
    | cons q qs =>
      refine ⟨c, (cs ++ ' ' :: joinSp (q :: qs)) ++ ':' :: rest, ?_, h1.1.1⟩
      rw [hline, joinSp_cons _ _ (by simp)]
      simp

theorem timestampMatch_head {l : List Char} (h : timestampMatch l = true) :
    (l.dropWhile isPySpace).head? = some '[' := by
  by_contra hc
  have hfalse : timestampMatch l = false := by
    unfold timestampMatch
    cases hd : l.dropWhile isPySpace with
    | nil => simp [hd]
    | cons c r =>
      have hcc : ¬c = '[' := fun hx => hc (by rw [hd, hx]; rfl)
      simp [hd, hcc]
  rw [hfalse] at h
  exact absurd h (by simp)

theorem metaMatch_head {l : List Char} (h : metaMatch l = true) :
    (l.dropWhile isPySpace).head? = some '_' := by
  by_contra hc
  have hfalse : metaMatch l = false := by
    unfold metaMatch
    cases hd : l.dropWhile isPySpace with
    | nil => simp [hd]
    | cons c r =>
      have hcc : ¬c = '_' := fun hx => hc (by rw [hd, hx]; rfl)
      simp [hd, hcc]
  rw [hfalse] at h
  exact absurd h (by simp)

theorem speaker_disjoint {line : List Char} (hs : (speakerMatch line).isSome = true) :
    (stripChars line).isEmpty = false ∧
      timestampMatch (stripChars line) = false ∧
      metaMatch (stripChars line) = false := by
  obtain ⟨c, rest, hline, hc⟩ := speakerMatch_head_alpha hs
  have hcws : isPySpace c = false := alpha_not_ws hc
  have hdrop : line.dropWhile isPySpace = line := by
    rw [hline]
    exact dropWhile_eq_self_of_headNotWs _ (by simp [headNotWs, hcws])
  obtain ⟨junk, hj, hjws⟩ := stripChars_decomp_ws line
  rw [hdrop] at hj
  have hstrip : ∃ s', stripChars line = c :: s' := by
    cases hsc : stripChars line with
    | nil =>
      rw [hsc, List.nil_append] at hj
      have : c ∈ junk := by rw [← hj, hline]; exact List.mem_cons_self _ _
      rw [hjws c this] at hcws
      exact absurd hcws (by simp)
    | cons d s' =>
      rw [hsc] at hj
      have hd : d = c := by
        rw [hline, List.cons_append] at hj
        exact ((List.cons.injEq c rest d (s' ++ junk)).mp hj).1.symm
      exact ⟨s', by rw [hd]⟩
  obtain ⟨s', hsc⟩ := hstrip
  have hstripdrop : (stripChars line).dropWhile isPySpace = stripChars line := by
    rw [hsc]
    exact dropWhile_eq_self_of_headNotWs _ (by simp [headNotWs, hcws])
  refine ⟨by rw [hsc]; rfl, ?_, ?_⟩
  · by_contra ht
    rw [Bool.not_eq_false] at ht
    have := timestampMatch_head ht
    rw [hstripdrop, hsc] at this
    simp only [List.head?_cons, Option.some.injEq] at this
    rw [this] at hc
    exact absurd hc (by decide)
  · by_contra ht
    rw [Bool.not_eq_false] at ht
    have := metaMatch_head ht
    rw [hstripdrop, hsc] at this
    simp only [List.head?_cons, Option.some.injEq] at this
    rw [this] at hc
    exact absurd hc (by decide)

theorem classify_speaker_iff (line : List Char) :
    (∃ rem, classifyLine line = .speaker rem) ↔ SpeakerShape line := by
  rw [← speakerMatch_isSome_iff]
  constructor
  · rintro ⟨rem, hc⟩
    by_cases h1 : (stripChars line).isEmpty = true
    · simp [classifyLine, h1] at hc
    · rw [Bool.not_eq_true] at h1
      by_cases h2 : timestampMatch (stripChars line) = true
      · simp [classifyLine, h1, h2] at hc
      · rw [Bool.not_eq_true] at h2
        by_cases h3 : metaMatch (stripChars line) = true
        · simp [classifyLine, h1, h2, h3] at hc
        · rw [Bool.not_eq_true] at h3
          cases h4 : speakerMatch line with
          | none => simp [classifyLine, h1, h2, h3, h4] at hc
          | some v => rfl
  · intro h
    obtain ⟨h1, h2, h3⟩ := speaker_disjoint h
    cases h4 : speakerMatch line with
    | none => rw [h4] at h; exact absurd h (by simp)
    | some rem =>
      exact ⟨rem, by simp [classifyLine, h1, h2, h3, h4]⟩

theorem exStep_eq_classify (s : ExState) (line : List Char) :
    exStep s line = exStepCat s (classifyLine line) := by
  by_cases h1 : (stripChars line).isEmpty = true
  · rw [exStep_blank h1]
    simp [classifyLine, h1, exStepCat]
  · rw [Bool.not_eq_true] at h1
    by_cases h2 : timestampMatch (stripChars line) = true
    · rw [exStep_ts h1 h2]
      simp [classifyLine, h1, h2, exStepCat]
    · rw [Bool.not_eq_true] at h2
      by_cases h3 : metaMatch (stripChars line) = true
      · rw [exStep_meta h1 h2 h3]
        simp [classifyLine, h1, h2, h3, exStepCat]
      · rw [Bool.not_eq_true] at h3
        cases h4 : speakerMatch line with
        | some spoken =>
          rw [exStep_speaker h1 h2 h3 h4]
          simp [classifyLine, h1, h2, h3, h4, exStepCat]
        | none =>
          rw [exStep_cont h1 h2 h3 h4]
          simp [classifyLine, h1, h2, h3, h4, exStepCat]

/-! ## Lemmas: restricted idempotence of the two normalizers -/

theorem cleanTextL_idem_no_markup (l : List Char) (h1 : '[' ∉ l) (h2 : '<' ∉ l) :
    cleanTextL (cleanTextL l) = cleanTextL l := by
  rw [cleanTextL_no_markup l h1 h2]
  have hy1 : '[' ∉ stripChars (collapseWs l) := by
    intro hm
    rcases mem_strip_collapse hm with hm | hm
    · exact absurd hm (by decide)
    · exact h1 hm
  have hy2 : '<' ∉ stripChars (collapseWs l) := by
    intro hm
    rcases mem_strip_collapse hm with hm | hm
    · exact absurd hm (by decide)
    · exact h2 hm
  rw [cleanTextL_no_markup _ hy1 hy2]
  exact strip_collapse_idem l

theorem normalizeTextL_idem_no_punct (l : List Char) (h1 : '[' ∉ l)
    (hp : ∀ c ∈ l, isLeadPunct c = false) :
    normalizeTextL (normalizeTextL l) = normalizeTextL l := by
  rw [normalizeTextL_no_markup l h1 hp]
  have hy1 : '[' ∉ stripChars (collapseWs l) := by
    intro hm
    rcases mem_strip_collapse hm with hm | hm
    · exact absurd hm (by decide)
    · exact h1 hm
  have hyp : ∀ c ∈ stripChars (collapseWs l), isLeadPunct c = false := by
    intro c hc
    rcases mem_strip_collapse hc with rfl | hc
    · rfl
    · exact hp c hc
  rw [normalizeTextL_no_markup _ hy1 hyp]
  exact strip_collapse_idem l

/-! ## Claim theorems -/

/-- C1, counterexample: the claimed emission guarantee ("an utterance is
emitted iff its normalized, joined text contains at least one alphanumeric
character") fails for the extraction pipeline of the missions cleaner:
`extract_dialogue` emits the utterance `"..."`, which contains no
alphanumeric character at all. -/
theorem c1_counterexample :
    extract_dialogue "CDR: ..." = ["..."] ∧
      ("...".toList.any isAlnumChar) = false := by
  exact ⟨by decide, by decide⟩

/-- C1, amended: every utterance emitted by the timestamp-based cleaner
(`clean_file`) is non-empty and contains at least one alphanumeric character
(empty or punctuation-only candidates are silently dropped there); every
utterance emitted by `extract_dialogue` is non-empty, but the missions
cleaner imposes no alphanumeric requirement, so punctuation-only utterances
are emitted by it. -/
theorem c1_alnum_emission (lines : List (List Char)) :
    (∀ u ∈ cleanFileLinesL lines, u ≠ [] ∧ u.any isAlnumChar = true) ∧
      ∀ u ∈ extractDialogueLines lines, u ≠ [] := by
  constructor
  · intro u hu
    exact cleanGo_mem lines.length lines u hu
  · intro u hu
    have ht := extractDialogueLines_tidy lines u hu
    rw [tidy_iff] at ht
    exact ht.1

/-- C1, witness: the amended theorem applied to one concrete document. -/
theorem c1_alnum_emission_witness :
    "Go.".toList ≠ [] ∧ ("Go.".toList).any isAlnumChar = true :=
  (c1_alnum_emission ["0:00:01 CDR: Go.".toList]).1 "Go.".toList (by decide)

/-- C2, counterexample: on the input of Scenario 3 neither cleaner emits the
claimed pair `["Copy.", "Roger."]`. -/
theorem c2_counterexample :
    extract_dialogue "CC: Copy.\nComm break.\nLM: Roger." ≠ ["Copy.", "Roger."] ∧
      clean_file_text "CC: Copy.\nComm break.\nLM: Roger." ≠ ["Copy.", "Roger."] := by
  exact ⟨by decide, by decide⟩

/-- C2, amended: the missions cleaner has no non-dialogue rule, so the
comm-break line (which has no colon) is classified a continuation and is
merged into the open utterance: `extract_dialogue` yields
`["Copy. Comm break.", "Roger."]`.  The non-dialogue marker is recognised
only by the timestamp-based cleaner (`NON_DIALOGUE_LINE_RE`), where it bounds
the look-ahead merge; on this input `clean_file` emits nothing, because no
line carries a timestamp+speaker header. -/
theorem c2_comm_break_merged :
    extract_dialogue "CC: Copy.\nComm break.\nLM: Roger." =
        ["Copy. Comm break.", "Roger."] ∧
      clean_file_text "CC: Copy.\nComm break.\nLM: Roger." = [] ∧
      isNonDialogue "Comm break.".toList = true := by
  exact ⟨by decide, by decide, by decide⟩

/-- C3: evaluation of `clean_file` at the failing input.  After the
look-ahead merge for the empty-remainder header `"0:00:01 CDR:"` stops at the
boundary line `"0:00:02 LMP: Roger."`, the source sets `i = j` and then runs
the unconditional `i += 1`, so the boundary header itself is skipped and its
utterance `"Roger."` is lost: the output is `["Hello there"]`, not
`["Hello there", "Roger."]` as the claim (and the spec) require.  The second
conjunct shows the lost line produces `["Roger."]` when processed as a
primary line. -/
theorem c3_boundary_line_skipped :
    clean_file_text "0:00:01 CDR:\nHello there\n0:00:02 LMP: Roger." =
        ["Hello there"] ∧
      clean_file_text "0:00:02 LMP: Roger." = ["Roger."] := by
  exact ⟨by decide, by decide⟩

/-- C4, counterexample: the dialogue-focused normalizer does not unwrap
glossary markup — `BRACKET_ANNOTATION_RE` deletes the whole bracketed
span, so `normalize_text "[glossary:Moon|Earth's satellite]"` is the empty
string, not `"Moon"`. -/
theorem c4_counterexample :
    normalize_text ("[glossary:Moon|Earth" ++ String.mk [Char.ofNat 39] ++
        "s satellite]") ≠ "Moon" ∧
      normalize_text ("[glossary:Moon|Earth" ++ String.mk [Char.ofNat 39] ++
        "s satellite]") = "" := by
  exact ⟨by decide, by decide⟩

/-- C4, amended: only the missions cleaner's `clean_text` unwraps bracketed
glossary/annotation markup to the bare term (so
`"[glossary:Moon|Earth's satellite]"` normalizes to `"Moon"` there); the
dialogue-focused `normalize_text` instead deletes bracketed annotations
entirely, yielding `""` on the same input. -/
theorem c4_unwrap_vs_delete :
    clean_text ("[glossary:Moon|Earth" ++ String.mk [Char.ofNat 39] ++
        "s satellite]") = "Moon" ∧
      normalize_text ("[glossary:Moon|Earth" ++ String.mk [Char.ofNat 39] ++
        "s satellite]") = "" := by
  exact ⟨by decide, by decide⟩

/-- C5: Scenario 2 confirmed on the code.  The header `"00:12:03 CDR:"`
matches `TIMESTAMP_SPEAKER_RE` with an empty remainder (first conjunct), the
continuation line ends in terminal sentence punctuation and so stops the
look-ahead scan once consumed (second conjunct), and the whole document
yields exactly the single utterance `"Stand by for the burn."`. -/
theorem c5_empty_header_lookahead :
    tsMatch "00:12:03 CDR:".toList = some [] ∧
      sentenceEnd "Stand by for the burn.".toList = true ∧
      clean_file_text "00:12:03 CDR:\nStand by for the burn.\n" =
        ["Stand by for the burn."] := by
  exact ⟨by decide, by decide, by decide⟩

/-- C6, counterexample: the claim's token grammar (tokens of
letters/digits/apostrophe/parenthesis/hyphen/slash, each at most 25
characters) disagrees with `SPEAKER_RE` in both directions: a second token of
25 characters satisfies the claimed grammar but is rejected by the code
(later tokens allow at most 24 characters), and an underscore is accepted by
the code's `\w`-based token class though the claimed character list excludes
it. -/
theorem c6_counterexample :
    claimSpeakerLine ("A bbbbbbbbbbbbbbbbbbbbbbbbb: x".toList) = true ∧
      speakerMatch ("A bbbbbbbbbbbbbbbbbbbbbbbbb: x".toList) = none ∧
      claimSpeakerLine ("A_: x".toList) = false ∧
      speakerMatch ("A_: x".toList) = some ("x".toList) := by
  exact ⟨by decide, by decide, by decide, by decide⟩

/-- C6, amended: a line is classified SpeakerStart exactly when the text
before the first colon is a run of 1–4 space-separated tokens over the word
characters (letters, digits, underscore) plus apostrophe, parentheses,
hyphen and slash, where the first token starts with a letter and has at most
25 characters, and each later token has between 1 and 24 characters; the
colon may be followed by arbitrary trailing text. -/
theorem c6_speaker_grammar (line : List Char) :
    (∃ rem, classifyLine line = .speaker rem) ↔ SpeakerShape line :=
  classify_speaker_iff line

/-- C7, counterexample: neither normalizer is idempotent.  Unwrapping
`[a:b[c:d]e]` exposes a new bracketed term that only a second pass rewrites
(`clean_text`), and stripping the leading `", "` exposes a leading hyphen
that only a second pass removes (`normalize_text`). -/
theorem c7_counterexample :
    clean_text (clean_text "[a:b[c:d]e]") ≠ clean_text "[a:b[c:d]e]" ∧
      normalize_text (normalize_text ", -a") ≠ normalize_text ", -a" := by
  exact ⟨by decide, by decide⟩

/-- C7, amended: idempotence holds only on restricted inputs: `clean_text`
is idempotent on strings containing neither `[` nor `<`, and
`normalize_text` is idempotent on strings containing neither `[` nor any of
the punctuation characters of its leading-punctuation class. -/
theorem c7_idempotent_restricted (l : List Char) :
    ('[' ∉ l → '<' ∉ l → cleanTextL (cleanTextL l) = cleanTextL l) ∧
      ('[' ∉ l → (∀ c ∈ l, isLeadPunct c = false) →
        normalizeTextL (normalizeTextL l) = normalizeTextL l) :=
  ⟨fun h1 h2 => cleanTextL_idem_no_markup l h1 h2,
   fun h1 hp => normalizeTextL_idem_no_punct l h1 hp⟩

/-- C7, witness: the amended theorem applied to a concrete string. -/
theorem c7_idempotent_restricted_witness :
    cleanTextL (cleanTextL "go  for  launch".toList) =
        cleanTextL "go  for  launch".toList ∧
      normalizeTextL (normalizeTextL "go  for  launch".toList) =
        normalizeTextL "go  for  launch".toList :=
  ⟨(c7_idempotent_restricted "go  for  launch".toList).1 (by decide) (by decide),
   (c7_idempotent_restricted "go  for  launch".toList).2 (by decide) (by decide)⟩

/-- C8, counterexample: an utterance can span a NonDialogue marker in the
missions cleaner.  `"Long comm break."` is a non-dialogue marker (third
conjunct), yet `extract_dialogue` merges it into the middle of the first
emitted utterance, contradicting the claim that a NonDialogue boundary
always flushes and is never part of an utterance. -/
theorem c8_counterexample :
    extract_dialogue "CC: Over.\nLong comm break.\nLM: Go." =
        ["Over. Long comm break.", "Go."] ∧
      isNonDialogue "Long comm break.".toList = true := by
  exact ⟨by decide, by decide⟩

/-- C8, amended: order preservation holds — the assembler only ever appends
to the emitted sequence, so utterance order matches input order — and every
Blank/Timestamp/Metadata/SpeakerStart line (and end of input, via the final
flush) flushes the open utterance, whose replacement is independent of the
previous state.  NonDialogue markers are boundaries only in the
timestamp-based cleaner's look-ahead, not in `extract_dialogue`. -/
theorem c8_order_and_boundary_flush (s : ExState) (line : List Char)
    (lines : List (List Char)) :
    (∃ t, (lines.foldl exStep s).out = s.out ++ t) ∧
      (isBoundaryLine line = true →
        (exStep s line).out = flushSt s ∧
          (exStep s line).parts = (exStep ⟨[], []⟩ line).parts) :=
  ⟨foldl_exStep_out_append lines s, fun h => exStep_boundary h⟩

/-- C8, witness: the amended theorem applied to a concrete state and line. -/
theorem c8_order_and_boundary_flush_witness :
    (exStep ⟨[], ["Over.".toList]⟩ ("LM: Go.".toList)).out =
        flushSt ⟨[], ["Over.".toList]⟩ ∧
      (exStep ⟨[], ["Over.".toList]⟩ ("LM: Go.".toList)).parts =
        (exStep ⟨[], []⟩ ("LM: Go.".toList)).parts :=
  (c8_order_and_boundary_flush ⟨[], ["Over.".toList]⟩ ("LM: Go.".toList) []).2
    (by decide)

/-- C9: totality and termination of the pipeline.  The outer `clean_file`
loop strictly advances its cursor at every iteration (first conjunct), hence
it terminates: its result is independent of any sufficient fuel bound
(second conjunct).  The look-ahead cursor never leaves the line array (third
conjunct).  The missions cleaner factors through the total classifier
`classifyLine` (fourth conjunct), which assigns every line exactly one
category (fifth conjunct) — there is no rejecting state.  Empty input gives
the empty, non-exceptional output on both cleaners (last conjuncts). -/
theorem c9_total_terminating :
    (∀ (ln : List Char) (rest : List (List Char)),
        ((cleanIter (ln :: rest)).2).length < (ln :: rest).length) ∧
      (∀ (lines : List (List Char)) (f g : Nat),
        lines.length ≤ f → lines.length ≤ g → cleanGo f lines = cleanGo g lines) ∧
      (∀ rest : List (List Char), (lookScan rest).2 ≤ rest.length) ∧
      (∀ (s : ExState) (line : List Char),
        exStep s line = exStepCat s (classifyLine line)) ∧
      (∀ line : List Char, ∃! c : LineCat, classifyLine line = c) ∧
      extract_dialogue "" = [] ∧ clean_file_text "" = [] := by
  refine ⟨cleanIter_progress,
    fun lines f g hf hg => cleanGo_fuel f lines g hf hg,
    lookScan_le, exStep_eq_classify, ?_, by decide, by decide⟩
  intro line
  exact ⟨classifyLine line, rfl, fun c h => h.symm⟩

/-- C9, witness: fuel independence applied at a concrete document with two
different sufficient fuel values. -/
theorem c9_total_terminating_witness :
    cleanGo 3 ["0:00:01 CDR: Go.".toList] = cleanGo 7 ["0:00:01 CDR: Go.".toList] :=
  c9_total_terminating.2.1 ["0:00:01 CDR: Go.".toList] 3 7 (by decide) (by decide)

/-- C10: every string returned by the dialogue extractor is non-empty, has
no leading and no trailing whitespace character, and contains no two
consecutive whitespace characters: each part is collapsed and stripped by
`clean_text` before accumulation, only non-empty parts are accumulated, and
parts are joined with exactly one space. -/
theorem c10_output_tidy (lines : List (List Char)) :
    ∀ u ∈ extractDialogueLines lines,
      u ≠ [] ∧ headNotWs u = true ∧ lastNotWs u = true ∧ noWsRun u = true := by
  intro u hu
  rw [← tidy_iff]
  exact extractDialogueLines_tidy lines u hu

/-- C10, witness: the invariant applied to a concrete document whose raw
text carries extra whitespace. -/
theorem c10_output_tidy_witness :
    "hi there".toList ≠ [] ∧ headNotWs "hi there".toList = true ∧
      lastNotWs "hi there".toList = true ∧ noWsRun "hi there".toList = true :=
  c10_output_tidy ["CDR:   hi   there  ".toList] "hi there".toList (by decide)
